import Mathlib

/-!
Verification development for the himitsu block-cipher-mode library.

Bytes are modelled as `Nat` values (u8 contents, < 256 where it matters);
byte buffers and blocks as `List Nat`.  The block-cipher primitive is kept
abstract: it enters every definition as a function `List Nat → List Nat`
(the in-place single-block transform of the Rust `Primitive` traits).
Fallible Rust functions returning `Result` become `Except`.

The `FixedBuffer`/`ArrayBuffer` utility type and the primitive traits live
outside the specified sources; where their behaviour is needed it is
modelled from the spec (see the individual doc comments).
-/

namespace Himitsu

/-- Error type of `errors::blockcipher::BlockCipherError`
(`IncompleteBlock(usize)` is the only variant the mode engines raise). -/
inductive BlockCipherError where
  | incompleteBlock (missing : Nat)
deriving DecidableEq, Repr

/-- The `std::io::ErrorKind` values used by the CBC streaming `flush`
(`ErrorKind::UnexpectedEof`). -/
inductive IoErrorKind where
  | unexpectedEof
deriving DecidableEq, Repr

/-- Errors of `encode::base64::Error`. -/
inductive Base64Error where
  | invalidInputLength (len : Nat)
  | invalidFormat (remainderLen : Nat)
deriving DecidableEq, Repr

/-- Modelled from the spec: `util::xor_buffers(dst, src)` performs the
elementwise in-place XOR `dst[i] ^= src[i]` used for CBC chaining
(spec §4.4: `P XOR IV`).  The result is the updated `dst`. -/
def xorBuffers (dst src : List Nat) : List Nat :=
  List.zipWith Nat.xor dst src

namespace BlockCbc

/-!
Embedding of `src/blockcipher/cbc/syncronous.rs`: the single-block CBC
providers `CbcEncryption` / `CbcDecryption`.  Their only state is the
`iv : Array<u8, B>` field; the primitive is the abstract parameter
`E` / `D` below.
-/

/-- State of `blockcipher::cbc::CbcEncryption`: the `iv` chaining buffer. -/
structure EncState where
  iv : List Nat
deriving DecidableEq, Repr

/-- State of `blockcipher::cbc::CbcDecryption`: the `iv` chaining buffer. -/
structure DecState where
  iv : List Nat
deriving DecidableEq, Repr

/-- `CbcEncryption::encrypt(&mut self, data)`:
`xor_buffers(self.iv, data); self.primitive.encrypt(self.iv);
data.copy_from_slice(self.iv)`.  Returns the new engine state and the
contents of `data` afterwards (the emitted ciphertext block). -/
def encryptBlock (E : List Nat → List Nat) (s : EncState) (data : List Nat) :
    EncState × List Nat :=
  let iv1 := xorBuffers s.iv data
  let iv2 := E iv1
  (⟨iv2⟩, iv2)

/-- `CbcDecryption::decrypt(&mut self, data)`:
`new_iv = copy of data; self.primitive.decrypt(data);
xor_buffers(data, self.iv); self.iv = new_iv`.  Returns the new engine
state and the contents of `data` afterwards (the emitted plaintext). -/
def decryptBlock (D : List Nat → List Nat) (s : DecState) (data : List Nat) :
    DecState × List Nat :=
  let newIv := data
  let d1 := D data
  let d2 := xorBuffers d1 s.iv
  (⟨newIv⟩, d2)

/-- Driving `CbcEncryption::encrypt` over a sequence of blocks,
collecting the emitted ciphertext blocks in order. -/
def encryptBlocks (E : List Nat → List Nat) : EncState → List (List Nat) → List (List Nat)
  | _, [] => []
  | s, p :: ps =>
    let r := encryptBlock E s p
    r.2 :: encryptBlocks E r.1 ps

/-- Driving `CbcDecryption::decrypt` over a sequence of blocks,
collecting the emitted plaintext blocks in order. -/
def decryptBlocks (D : List Nat → List Nat) : DecState → List (List Nat) → List (List Nat)
  | _, [] => []
  | s, c :: cs =>
    let r := decryptBlock D s c
    r.2 :: decryptBlocks D r.1 cs

end BlockCbc

namespace Ecb

/-!
Embedding of `src/cipher/blockcipher/ecb.rs`: the streaming
`EcbEncryption` / `EcbDecryption` engines.  Both have the same code with
only the primitive operation differing, so one set of definitions,
parameterized by the primitive transform `F`, models both.

The working buffer `T::BlockType` is modelled from the spec (§4.1 Fixed
Buffer) as the list of bytes filled so far (fill level = list length,
capacity B); `capacity()` reports the remaining space `B − fill`
(spec §4.3: the finalize error carries `missing = B − fill`).
-/

/-- Engine state: the working block buffer (filled prefix) and the `out`
accumulator.  A fresh engine (`EcbEncryption::new`) has both empty. -/
structure State where
  buffer : List Nat
  out : List Nat
deriving DecidableEq, Repr

/-- `process_buffer`: transform the buffer with the primitive, replace it
with a fresh one, append the transformed block to `out`. -/
def processBuffer (F : List Nat → List Nat) (s : State) : State :=
  ⟨[], s.out ++ F s.buffer⟩

/-- One iteration step of the `write` loop, at byte granularity: the Rust
loop runs `if self.buffer.is_full() { self.process_buffer(); }` and then
`push_slice`, which copies `min(B − fill, remaining)` bytes; since
`push_slice` stops exactly at a full buffer and the loop re-checks
fullness before every further copy, copying the pending bytes one at a
time through the same check yields the identical sequence of states. -/
def pushByte (F : List Nat → List Nat) (B : Nat) (s : State) (b : Nat) : State :=
  let s1 := if s.buffer.length = B then processBuffer F s else s
  ⟨s1.buffer ++ [b], s1.out⟩

/-- `io::Write::write` for the ECB engines (always consumes all input,
so the returned byte count is omitted). -/
def write (F : List Nat → List Nat) (B : Nat) (s : State) (buf : List Nat) : State :=
  buf.foldl (pushByte F B) s

/-- `finalize`: `if self.buffer.is_full() { self.process_buffer(); }
else if !self.buffer.is_full() { return Err(IncompleteBlock(capacity)) }`,
then `Ok(Readable::new(out))`.  Note the `else if`: any non-full buffer,
including an empty one, takes the error branch. -/
def finalize (F : List Nat → List Nat) (B : Nat) (s : State) :
    Except BlockCipherError (List Nat) :=
  if s.buffer.length = B then .ok (processBuffer F s).out
  else .error (.incompleteBlock (B - s.buffer.length))

/-- `io::Write::flush` for the ECB engines: `Ok(())`, touching nothing. -/
def flush (_s : State) : Except IoErrorKind Unit :=
  .ok ()

/-- Write-then-finalize: the whole-stream behaviour of an ECB engine
constructed fresh (`new`), fed `input`, then finalized. -/
def run (F : List Nat → List Nat) (B : Nat) (input : List Nat) :
    Except BlockCipherError (List Nat) :=
  finalize F B (write F B ⟨[], []⟩ input)

end Ecb

namespace StreamCbc

/-!
Embedding of `src/cipher/block/cbc/syncronous.rs`: the streaming
`CbcEncryption` / `CbcDecryption` engines over `FixedBuffer`.

The working buffer is modelled as its filled prefix (see `Ecb`).  The IV
`FixedBuffer` is only ever read whole (`as_ref`) or replaced whole
(`override_contents` with a full block, or `FixedBuffer::from` of a full
block), so it is modelled as a plain list of length B; at construction
the spec (§4.4) fixes the unfilled remainder to zero.

The primitive trait calls are modelled from the spec (§4.4):
`primitive.encrypt(data, Some(iv), None)` is `E (data XOR iv)` (xor
applied before the transform) and `primitive.decrypt(data, None,
Some(iv))` is `(D data) XOR iv` (xor applied after the transform).
-/

/-- Engine state shared by the streaming CBC encryption and decryption
providers: working buffer, IV buffer, output accumulator. -/
structure State where
  buffer : List Nat
  iv : List Nat
  out : List Nat
deriving DecidableEq, Repr

/-- `CbcEncryption::new` / `CbcDecryption::new`: a fresh buffer, and an IV
buffer obtained by `push_slice`-ing the caller's bytes into a fresh
`FixedBuffer` (at most B consumed; shortfall stays at the default zero,
spec §4.4). -/
def new (B : Nat) (ivInput : List Nat) : State :=
  ⟨[], ivInput.take B ++ List.replicate (B - ivInput.length) 0, []⟩

/-- `CbcEncryption::process_buffer`:
`primitive.encrypt(buffer, Some(iv), None)`, extract the encrypted block,
`iv.override_contents(encrypted)`, `out.extend(encrypted)`. -/
def encProcessBuffer (E : List Nat → List Nat) (s : State) : State :=
  let c := E (xorBuffers s.buffer s.iv)
  ⟨[], c, s.out ++ c⟩

/-- `CbcDecryption::process_buffer`:
`new_iv = FixedBuffer::from(buffer)`, then
`primitive.decrypt(buffer, None, Some(iv))`, extract the decrypted block,
`iv = new_iv`, `out.extend(decrypted)`.  The next chaining value is
captured from the buffer before the in-place transform. -/
def decProcessBuffer (D : List Nat → List Nat) (s : State) : State :=
  let newIv := s.buffer
  let p := xorBuffers (D s.buffer) s.iv
  ⟨[], newIv, s.out ++ p⟩

/-- One byte-granular step of the streaming CBC `write` loop:
`written += push_slice; if self.buffer.is_full() { self.process_buffer() }`
(push first, then process — the opposite order from ECB).  `proc` is the
engine's `process_buffer`; the encryption and decryption `write` bodies
are textually identical. -/
def pushByte (proc : State → State) (B : Nat) (s : State) (b : Nat) : State :=
  let s1 : State := ⟨s.buffer ++ [b], s.iv, s.out⟩
  if s1.buffer.length = B then proc s1 else s1

/-- `io::Write::write` for the streaming CBC engines. -/
def writeWith (proc : State → State) (B : Nat) (s : State) (buf : List Nat) : State :=
  buf.foldl (pushByte proc B) s

/-- Streaming CBC encryption `write`. -/
def encWrite (E : List Nat → List Nat) (B : Nat) (s : State) (buf : List Nat) : State :=
  writeWith (encProcessBuffer E) B s buf

/-- Streaming CBC decryption `write`. -/
def decWrite (D : List Nat → List Nat) (B : Nat) (s : State) (buf : List Nat) : State :=
  writeWith (decProcessBuffer D) B s buf

/-- `finalize(self) -> Readable<Vec<u8>>` of both streaming CBC engines:
it consumes the engine and hands out the output accumulator.  Its return
type has no error case — it cannot fail. -/
def finalize (s : State) : List Nat :=
  s.out

/-- `io::Write::flush` of both streaming CBC engines:
`if !self.buffer.is_full() { Err(io::Error::new(UnexpectedEof,
IncompleteBlock(self.buffer.capacity()))) } Ok(())`; the buffer's
remaining capacity `B − fill` is spec-modelled (§4.1, §7). -/
def flush (B : Nat) (s : State) : Except (IoErrorKind × BlockCipherError) Unit :=
  if s.buffer.length = B then .ok ()
  else .error (.unexpectedEof, .incompleteBlock (B - s.buffer.length))

end StreamCbc

namespace Buffered

/-!
Embedding of `src/cipher/block/buffered.rs`: the generic
`BufferedCipherEncryption` / `BufferedCipherDecryption` adapters over an
`ArrayBuffer`.  The wrapped cipher is abstract: its state has type `σ`
and its single-block operation (`BlockCipherEncryption::encrypt` resp.
`::decrypt`, both `&mut self, &mut [u8; B]`) is a parameter
`f : σ → List Nat → σ × List Nat` returning the updated cipher state and
the transformed block.  `ArrayBuffer` is modelled from the spec exactly
like `FixedBuffer` (§4.1): the filled prefix, with `capacity()` the
remaining space `B − fill` (§4.5: `missing()` reports the bytes needed
to complete the partial block).
-/

/-- Adapter state: wrapped cipher, working buffer, output accumulator. -/
structure State (σ : Type) where
  cipher : σ
  buffer : List Nat
  out : List Nat

/-- `missing()`: `if !self.buffer.is_full() && !self.buffer.is_empty()
{ return Some(self.buffer.capacity()); } None`. -/
def missing (B : Nat) {σ : Type} (s : State σ) : Option Nat :=
  if ¬ s.buffer.length = B ∧ ¬ s.buffer.length = 0 then some (B - s.buffer.length)
  else none

/-- `process_buffer`: `extract` the full buffer, run the wrapped cipher's
block operation on it, append the result to `out`. -/
def processBuffer {σ : Type} (f : σ → List Nat → σ × List Nat) (s : State σ) : State σ :=
  let r := f s.cipher s.buffer
  ⟨r.1, [], s.out ++ r.2⟩

/-- One byte-granular step of the adapter `write` loop:
`written += push_slice; if self.buffer.is_full() { self.process_buffer() }`. -/
def pushByte {σ : Type} (f : σ → List Nat → σ × List Nat) (B : Nat)
    (s : State σ) (b : Nat) : State σ :=
  let s1 : State σ := ⟨s.cipher, s.buffer ++ [b], s.out⟩
  if s1.buffer.length = B then processBuffer f s1 else s1

/-- `io::Write::write` for the buffered adapters. -/
def write {σ : Type} (f : σ → List Nat → σ × List Nat) (B : Nat)
    (s : State σ) (buf : List Nat) : State σ :=
  buf.foldl (pushByte f B) s

/-- `finalize(self)`: consume the adapter, collecting `out`. -/
def finalize {σ : Type} (s : State σ) : List Nat :=
  s.out

/-- `finalize_and_reset(&mut self)`:
`self.buffer = ArrayBuffer::new(); mem::replace(&mut self.out,
Vec::new()).into_iter().collect()` — returns the drained output and the
reset adapter.  The `cipher` field is not touched. -/
def finalizeAndReset {σ : Type} (s : State σ) : List Nat × State σ :=
  (s.out, ⟨s.cipher, [], []⟩)

/-- `io::Write::flush` for the buffered adapters: `Ok(())`. -/
def flush {σ : Type} (_s : State σ) : Except IoErrorKind Unit :=
  .ok ()

end Buffered

namespace Base64

/-!
Embedding of `src/encode/base64.rs`.  Strings are lists of `Char`
(the inputs the library handles are ASCII, for which Rust's byte length
`str::len()` coincides with the character count).  The u8 bit
manipulations are translated to `Nat` arithmetic; each definition's doc
comment records the original expression.  For a byte `x`:
`x >> 2` is `x / 4`; `x & 0b11` is `x % 4`; `(x & 0b11110000) >> 4` is
`x / 16 % 16`; `(x & 0b1111) << 2` is `x % 16 * 4`;
`(x & 0b11000000) >> 6` is `x / 64 % 4`; `x & 0b111111` is `x % 64`;
a u8 left shift `x << k` truncates, giving `x * 2 ^ k % 256`.  A bitwise
or combines summands occupying disjoint bit ranges everywhere it occurs
(the low operand of each `|` is a 6-bit-value shifted right, the high
operand a masked value shifted left), so it is addition.
-/

/-- `Kind`: the selectable alphabet. -/
inductive Kind where
  | basic
  | urlSafe
deriving DecidableEq, Repr

/-- The `B64_CHARS` standard alphabet table. -/
def stdChars : List Char :=
  ['A', 'B', 'C', 'D', 'E', 'F', 'G', 'H', 'I', 'J', 'K', 'L', 'M',
   'N', 'O', 'P', 'Q', 'R', 'S', 'T', 'U', 'V', 'W', 'X', 'Y', 'Z',
   'a', 'b', 'c', 'd', 'e', 'f', 'g', 'h', 'i', 'j', 'k', 'l', 'm',
   'n', 'o', 'p', 'q', 'r', 's', 't', 'u', 'v', 'w', 'x', 'y', 'z',
   '0', '1', '2', '3', '4', '5', '6', '7', '8', '9',
   '+', '/']

/-- The `B64_URL_CHARS` URL-safe alphabet table. -/
def urlChars : List Char :=
  ['A', 'B', 'C', 'D', 'E', 'F', 'G', 'H', 'I', 'J', 'K', 'L', 'M',
   'N', 'O', 'P', 'Q', 'R', 'S', 'T', 'U', 'V', 'W', 'X', 'Y', 'Z',
   'a', 'b', 'c', 'd', 'e', 'f', 'g', 'h', 'i', 'j', 'k', 'l', 'm',
   'n', 'o', 'p', 'q', 'r', 's', 't', 'u', 'v', 'w', 'x', 'y', 'z',
   '0', '1', '2', '3', '4', '5', '6', '7', '8', '9',
   '-', '_']

/-- The `PADDING` character. -/
def padding : Char := '='

/-- `Kind::value_at(ix)`: index into the alphabet table.  The Rust array
access panics out of range; every call site passes an index < 64, so the
default returned by `getD` beyond the table is never reached. -/
def Kind.valueAt (k : Kind) (ix : Nat) : Char :=
  match k with
  | .basic => stdChars.getD ix 'A'
  | .urlSafe => urlChars.getD ix 'A'

/-- `Kind::is_b64(c)`: the index of `c` in the alphabet, or `none`. -/
def Kind.isB64 (k : Kind) (c : Char) : Option Nat :=
  match k with
  | .basic =>
    if 'A' ≤ c ∧ c ≤ 'Z' then some (c.toNat - 'A'.toNat)
    else if 'a' ≤ c ∧ c ≤ 'z' then some (c.toNat - 'a'.toNat + 26)
    else if '0' ≤ c ∧ c ≤ '9' then some (c.toNat - '0'.toNat + 52)
    else if c = '+' then some 62
    else if c = '/' then some 63
    else none
  | .urlSafe =>
    if 'A' ≤ c ∧ c ≤ 'Z' then some (c.toNat - 'A'.toNat)
    else if 'a' ≤ c ∧ c ≤ 'z' then some (c.toNat - 'a'.toNat + 26)
    else if '0' ≤ c ∧ c ≤ '9' then some (c.toNat - '0'.toNat + 52)
    else if c = '-' then some 62
    else if c = '_' then some 63
    else none

/-- `base64_encode`: the `chunks_exact(3)` loop followed by the
remainder handling (1 leftover byte → two `=`, 2 leftover bytes → one
`=`); the recursion consumes the exact 3-chunks in the same order.
Main chunk indices (`ia`, `ib`, `ic`, `id`):
`ch[0] >> 2`, `((ch[0] & 0b11) << 4) | ((ch[1] & 0b11110000) >> 4)`,
`((ch[1] & 0b1111) << 2) | ((ch[2] & 0b11000000) >> 6)`,
`ch[2] & 0b111111`. -/
def base64Encode (k : Kind) : List Nat → List Char
  | a :: b :: c :: rest =>
    [k.valueAt (a / 4),
     k.valueAt (a % 4 * 16 + b / 16 % 16),
     k.valueAt (b % 16 * 4 + c / 64 % 4),
     k.valueAt (c % 64)] ++ base64Encode k rest
  | [a] =>
    [k.valueAt (a / 4), k.valueAt (a % 4 * 16), padding, padding]
  | [a, b] =>
    [k.valueAt (a / 4), k.valueAt (a % 4 * 16 + b / 16 % 16),
     k.valueAt (b % 16 * 4), padding]
  | [] => []

/-- `decode_core`: the `chunks_exact(4)` loop followed by the remainder
match (`0`, `2`, `3` accepted, anything else — necessarily `1` —
rejected with `InvalidFormat(rem.len())`).  Decoded bytes:
`(ch[0] << 2) | (ch[1] >> 4)`, `(ch[1] << 4) | (ch[2] >> 2)`,
`(ch[2] << 6) | ch[3]`, each a truncating u8 shift or-ed with a value
below the shifted bits (inputs are `is_b64` indices, i.e. < 64). -/
def decodeCore : List Nat → Except Base64Error (List Nat)
  | w :: x :: y :: z :: rest =>
    match decodeCore rest with
    | .error e => .error e
    | .ok tail =>
      .ok ((w * 4 % 256 + x / 16) :: (x * 16 % 256 + y / 4) ::
           (y * 64 % 256 + z) :: tail)
  | [] => .ok []
  | [_] => .error (.invalidFormat 1)
  | [w, x] => .ok [w * 4 % 256 + x / 16]
  | [w, x, y] => .ok [(w * 4 % 256 + x / 16), (x * 16 % 256 + y / 4)]

/-- `base64_decode`: reject inputs whose length is not a multiple of 4
with `InvalidInputLength`, filter the characters through `is_b64`
(dropping the rest, padding included), and run `decode_core`. -/
def base64Decode (k : Kind) (s : List Char) : Except Base64Error (List Nat) :=
  if s.length % 4 ≠ 0 then .error (.invalidInputLength s.length)
  else decodeCore (s.filterMap k.isB64)

end Base64

/-- Splitting a byte stream into consecutive blocks of `B` bytes
(the final block possibly short); for `B > 0` this is the chunk
decomposition used to state blockwise properties of streams. -/
def chunksOf (B : Nat) : List Nat → List (List Nat)
  | [] => []
  | b :: rest => (b :: rest.take (B - 1)) :: chunksOf B (rest.drop (B - 1))
termination_by l => l.length
decreasing_by
  simp only [List.length_cons]
  have := List.length_drop (B - 1) rest
  omega

/-! ### Helper lemmas about the embedding -/

theorem length_xorBuffers (a b : List Nat) :
    (xorBuffers a b).length = min a.length b.length := by
  simp [xorBuffers]

theorem xorBuffers_comm (a b : List Nat) : xorBuffers a b = xorBuffers b a :=
  List.zipWith_comm_of_comm Nat.xor Nat.xor_comm a b

theorem xorBuffers_xorBuffers_left :
    ∀ (a b : List Nat), a.length = b.length → xorBuffers (xorBuffers a b) a = b := by
  intro a
  induction a with
  | nil =>
    intro b hb
    cases b with
    | nil => rfl
    | cons y ys => simp at hb
  | cons x xs ih =>
    intro b hb
    cases b with
    | nil => simp at hb
    | cons y ys =>
      simp only [List.length_cons, Nat.add_right_cancel_iff] at hb
      simp only [xorBuffers, List.zipWith_cons_cons, List.cons.injEq]
      refine ⟨?_, ih ys hb⟩
      show (x ^^^ y) ^^^ x = y
      rw [Nat.xor_comm x y, Nat.xor_cancel_right]

theorem flatten_chunksOf (B : Nat) : ∀ l : List Nat, (chunksOf B l).flatten = l := by
  intro l
  induction l using chunksOf.induct B with
  | case1 => simp [chunksOf]
  | case2 b rest ih =>
    rw [chunksOf]
    simp only [List.flatten_cons, ih, List.cons_append, List.cons.injEq, true_and]
    exact List.take_append_drop _ rest

theorem chunksOf_ne_nil (B : Nat) (l : List Nat) (h : l ≠ []) : chunksOf B l ≠ [] := by
  cases l with
  | nil => exact absurd rfl h
  | cons b rest => rw [chunksOf]; exact List.cons_ne_nil _ _

theorem length_mem_chunksOf (B : Nat) (hB : 0 < B) :
    ∀ l : List Nat, l.length % B = 0 → ∀ c ∈ chunksOf B l, c.length = B := by
  intro l
  induction l using chunksOf.induct B with
  | case1 => intro _ c hc; simp [chunksOf] at hc
  | case2 b rest ih =>
    intro hmod c hc
    have hdvd : B ∣ rest.length + 1 := by
      apply Nat.dvd_of_mod_eq_zero
      simpa using hmod
    have hge : B ≤ rest.length + 1 := Nat.le_of_dvd (Nat.succ_pos _) hdvd
    rw [chunksOf] at hc
    rcases List.mem_cons.mp hc with hfirst | hrest
    · subst hfirst
      simp only [List.length_cons, List.length_take]
      omega
    · refine ih ?_ c hrest
      have hdvd' : B ∣ rest.length + 1 - B := Nat.dvd_sub' hdvd dvd_rfl
      have hlen : (rest.drop (B - 1)).length = rest.length + 1 - B := by
        simp only [List.length_drop]; omega
      rcases hdvd' with ⟨k, hk⟩
      rw [hlen, hk, Nat.mul_mod_right]

namespace Ecb

/-- Writing a chunk that fits in the remaining buffer space only
accumulates bytes: the `write` loop triggers no `process_buffer`. -/
theorem write_no_process (F : List Nat → List Nat) (B : Nat) :
    ∀ (chunk buf out : List Nat), buf.length + chunk.length ≤ B →
      write F B ⟨buf, out⟩ chunk = ⟨buf ++ chunk, out⟩ := by
  intro chunk
  induction chunk with
  | nil => intro buf out _; simp [write]
  | cons c cs ih =>
    intro buf out h
    have hne : ¬ buf.length = B := by
      simp only [List.length_cons] at h; omega
    show write F B (pushByte F B ⟨buf, out⟩ c) cs = _
    rw [pushByte]
    simp only [hne, if_false]
    rw [ih (buf ++ [c]) out
      (by simp only [List.length_append, List.length_cons, List.length_nil] at h ⊢; omega)]
    simp

/-- Writing a stream of full blocks into an engine whose buffer already
holds a full block, then finalizing: every block is transformed by the
primitive and appended, the pending block first. -/
theorem finalize_write_flatten (F : List Nat → List Nat) (B : Nat) (hB : 0 < B) :
    ∀ (blocks : List (List Nat)) (buf out : List Nat), buf.length = B →
      (∀ blk ∈ blocks, blk.length = B) →
      finalize F B (write F B ⟨buf, out⟩ blocks.flatten) =
        .ok (out ++ F buf ++ (blocks.map F).flatten) := by
  intro blocks
  induction blocks with
  | nil =>
    intro buf out hbuf _
    simp only [List.flatten_nil, write, List.foldl_nil, List.map_nil, List.append_nil]
    rw [finalize, if_pos hbuf, processBuffer]
  | cons blk rest ih =>
    intro buf out hbuf hall
    have hblk : blk.length = B := hall blk (List.mem_cons_self _ _)
    cases blk with
    | nil => simp at hblk; omega
    | cons b blk' =>
      simp only [List.flatten_cons, List.cons_append]
      have step1 : write F B ⟨buf, out⟩ (b :: (blk' ++ rest.flatten)) =
          write F B ⟨[b], out ++ F buf⟩ (blk' ++ rest.flatten) := by
        show write F B (pushByte F B ⟨buf, out⟩ b) _ = _
        rw [pushByte]
        simp only [hbuf, if_pos rfl, processBuffer]
        rfl
      rw [step1]
      have step2 : write F B ⟨[b], out ++ F buf⟩ (blk' ++ rest.flatten) =
          write F B (write F B ⟨[b], out ++ F buf⟩ blk') rest.flatten := by
        simp [write, List.foldl_append]
      rw [step2, write_no_process F B blk' [b] (out ++ F buf)
        (by simp only [List.length_cons] at hblk; simp; omega)]
      have : ([b] ++ blk' : List Nat) = b :: blk' := rfl
      rw [this, ih (b :: blk') (out ++ F buf) hblk
        (fun x hx => hall x (List.mem_cons_of_mem _ hx))]
      simp

/-- Running a fresh ECB engine over a nonempty block-aligned stream:
the output is the blockwise image under the primitive. -/
theorem run_flatten (F : List Nat → List Nat) (B : Nat) (hB : 0 < B)
    (blocks : List (List Nat)) (hne : blocks ≠ [])
    (hall : ∀ blk ∈ blocks, blk.length = B) :
    run F B blocks.flatten = .ok ((blocks.map F).flatten) := by
  cases blocks with
  | nil => exact absurd rfl hne
  | cons blk rest =>
    have hblk : blk.length = B := hall blk (List.mem_cons_self _ _)
    rw [run]
    simp only [List.flatten_cons]
    have step0 : write F B ⟨[], []⟩ (blk ++ rest.flatten) =
        write F B (write F B ⟨[], []⟩ blk) rest.flatten := by
      simp [write, List.foldl_append]
    rw [step0, write_no_process F B blk [] [] (by simp [hblk])]
    simp only [List.nil_append]
    rw [finalize_write_flatten F B hB rest blk [] hblk
      (fun x hx => hall x (List.mem_cons_of_mem _ hx))]
    simp

end Ecb

namespace StreamCbc

/-- Invariant of the streaming CBC `write` loop, for any
`process_buffer` that consumes a full working buffer, keeps a
block-length IV and appends exactly one block to the output: after a
write, the working buffer holds the input remainder modulo the block
size and no byte is lost. -/
theorem writeWith_inv (proc : State → State) (B : Nat) (hB : 0 < B)
    (hproc : ∀ s : State, s.buffer.length = B → s.iv.length = B →
      (proc s).buffer = [] ∧ (proc s).iv.length = B ∧
      (proc s).out.length = s.out.length + B) :
    ∀ (bs : List Nat) (s : State), s.buffer.length < B → s.iv.length = B →
      (writeWith proc B s bs).buffer.length < B ∧
      (writeWith proc B s bs).iv.length = B ∧
      (writeWith proc B s bs).out.length + (writeWith proc B s bs).buffer.length =
        s.out.length + s.buffer.length + bs.length ∧
      (writeWith proc B s bs).buffer.length = (s.buffer.length + bs.length) % B := by
  intro bs
  induction bs with
  | nil =>
    intro s hbuf hiv
    exact ⟨hbuf, hiv, by simp [writeWith], (Nat.mod_eq_of_lt hbuf).symm⟩
  | cons b bs ih =>
    intro s hbuf hiv
    have hw : writeWith proc B s (b :: bs) =
        writeWith proc B (pushByte proc B s b) bs := rfl
    by_cases hfull : s.buffer.length + 1 = B
    · have hpush : pushByte proc B s b = proc ⟨s.buffer ++ [b], s.iv, s.out⟩ := by
        rw [pushByte]
        simp [hfull]
      obtain ⟨hpb, hpi, hpo⟩ := hproc ⟨s.buffer ++ [b], s.iv, s.out⟩ (by simp; omega) hiv
      have hlt : (proc ⟨s.buffer ++ [b], s.iv, s.out⟩).buffer.length < B := by
        rw [hpb]; simpa using hB
      obtain ⟨h1, h2, h3, h4⟩ := ih (proc ⟨s.buffer ++ [b], s.iv, s.out⟩) hlt hpi
      rw [hw, hpush]
      refine ⟨h1, h2, ?_, ?_⟩
      · rw [h3, hpo, hpb]
        simp only [List.length_nil, List.length_cons]
        omega
      · rw [h4, hpb]
        have harg : s.buffer.length + (b :: bs).length = B + bs.length := by
          simp only [List.length_cons]; omega
        rw [harg, Nat.add_mod_left]
        simp
    · have hpush : pushByte proc B s b = ⟨s.buffer ++ [b], s.iv, s.out⟩ := by
        rw [pushByte]
        simp only [List.length_append, List.length_cons, List.length_nil]
        rw [if_neg (by omega)]
      obtain ⟨h1, h2, h3, h4⟩ := ih ⟨s.buffer ++ [b], s.iv, s.out⟩
        (by simp; omega) hiv
      rw [hw, hpush]
      refine ⟨h1, h2, ?_, ?_⟩
      · rw [h3]; simp only [List.length_append, List.length_cons, List.length_nil]; omega
      · rw [h4]
        congr 1
        simp only [List.length_append, List.length_cons, List.length_nil]
        omega

/-- The streaming CBC encryption `process_buffer` consumes the full
working buffer, keeps a block-length IV, and emits one block, provided
the primitive transform preserves length. -/
theorem encProcessBuffer_spec (E : List Nat → List Nat) (B : Nat)
    (hElen : ∀ l, (E l).length = l.length) (s : State)
    (hbuf : s.buffer.length = B) (hiv : s.iv.length = B) :
    (encProcessBuffer E s).buffer = [] ∧ (encProcessBuffer E s).iv.length = B ∧
      (encProcessBuffer E s).out.length = s.out.length + B := by
  refine ⟨rfl, ?_, ?_⟩ <;>
    simp [encProcessBuffer, hElen, length_xorBuffers, hbuf, hiv]

/-- The streaming CBC decryption `process_buffer` consumes the full
working buffer, keeps a block-length IV (the captured ciphertext), and
emits one block, provided the primitive transform preserves length. -/
theorem decProcessBuffer_spec (D : List Nat → List Nat) (B : Nat)
    (hDlen : ∀ l, (D l).length = l.length) (s : State)
    (hbuf : s.buffer.length = B) (hiv : s.iv.length = B) :
    (decProcessBuffer D s).buffer = [] ∧ (decProcessBuffer D s).iv.length = B ∧
      (decProcessBuffer D s).out.length = s.out.length + B := by
  refine ⟨rfl, ?_, ?_⟩ <;>
    simp [decProcessBuffer, hDlen, length_xorBuffers, hbuf, hiv]

end StreamCbc

namespace Buffered

/-- Writing bytes that exactly complete the working buffer triggers
exactly one `process_buffer`, at the last byte: the wrapped cipher is
invoked once on the completed block. -/
theorem write_completes_block {σ : Type} (f : σ → List Nat → σ × List Nat) (B : Nat) :
    ∀ (blk : List Nat), blk ≠ [] → ∀ (c : σ) (buf out : List Nat),
      buf.length + blk.length = B →
      write f B ⟨c, buf, out⟩ blk =
        ⟨(f c (buf ++ blk)).1, [], out ++ (f c (buf ++ blk)).2⟩ := by
  intro blk
  induction blk with
  | nil => intro h; exact absurd rfl h
  | cons x rest ih =>
    intro _ c buf out hlen
    have hw : write f B ⟨c, buf, out⟩ (x :: rest) =
        write f B (pushByte f B ⟨c, buf, out⟩ x) rest := rfl
    cases rest with
    | nil =>
      have hfull : (buf ++ [x]).length = B := by
        simp only [List.length_cons, List.length_nil] at hlen
        simp; omega
      rw [hw, pushByte]
      simp only [hfull, if_pos rfl, processBuffer]
      rfl
    | cons y rest' =>
      have hlt : ¬ (buf ++ [x]).length = B := by
        simp only [List.length_cons] at hlen
        simp; omega
      rw [hw, pushByte]
      simp only [hlt, if_neg, ite_false]
      rw [ih (List.cons_ne_nil _ _) c (buf ++ [x]) out
        (by simp only [List.length_append, List.length_cons, List.length_nil] at hlen ⊢; omega)]
      simp

end Buffered

namespace Base64

theorem length_stdChars : stdChars.length = 64 := rfl

theorem length_urlChars : urlChars.length = 64 := rfl

/-- The alphabet lookup and the alphabet membership test are mutually
inverse on the 6-bit index range, for both alphabets. -/
theorem isB64_valueAt (k : Kind) : ∀ ix < 64, k.isB64 (k.valueAt ix) = some ix := by
  cases k <;> decide

/-- The padding character belongs to neither alphabet. -/
theorem isB64_padding (k : Kind) : k.isB64 padding = none := by
  cases k <;> decide

/-- No alphabet lookup ever yields the padding character. -/
theorem valueAt_ne_padding (k : Kind) : ∀ ix : Nat, k.valueAt ix ≠ padding := by
  have hall : ∀ ix < 64, k.valueAt ix ≠ padding := by cases k <;> decide
  intro ix
  rcases Nat.lt_or_ge ix 64 with h | h
  · exact hall ix h
  · cases k with
    | basic =>
      show stdChars.getD ix 'A' ≠ padding
      rw [List.getD_eq_default _ _ (by rw [length_stdChars]; omega)]
      decide
    | urlSafe =>
      show urlChars.getD ix 'A' ≠ padding
      rw [List.getD_eq_default _ _ (by rw [length_urlChars]; omega)]
      decide

/-- The encoded text always has length a multiple of 4. -/
theorem length_base64Encode (k : Kind) :
    ∀ bs : List Nat, (base64Encode k bs).length % 4 = 0 := by
  intro bs
  induction bs using base64Encode.induct k with
  | case1 a b c rest ih =>
    simp only [base64Encode, List.cons_append, List.nil_append, List.length_cons,
      List.length_append] at ih ⊢
    omega
  | case2 a => simp [base64Encode]
  | case3 a b => simp [base64Encode]
  | case4 => simp [base64Encode]

/-- The number of padding characters the encoder appends is 0, 2, 1
for input lengths congruent to 0, 1, 2 modulo 3 respectively. -/
theorem count_padding_base64Encode (k : Kind) :
    ∀ bs : List Nat, (base64Encode k bs).count padding = (3 - bs.length % 3) % 3 := by
  intro bs
  have hne : ∀ i : Nat, ¬ (k.valueAt i == padding) = true := by
    intro i
    simp only [beq_iff_eq]
    exact valueAt_ne_padding k i
  induction bs using base64Encode.induct k with
  | case1 a b c rest ih =>
    simp only [base64Encode, List.cons_append, List.nil_append, List.count_cons, ih,
      List.length_cons, hne, if_false, cond_false]
    have : (rest.length + 1 + 1 + 1) % 3 = rest.length % 3 := by omega
    rw [this]
    simp
  | case2 a =>
    simp only [base64Encode, List.count_cons, List.count_nil, hne, List.length_cons,
      List.length_nil]
    simp [padding]
  | case3 a b =>
    simp only [base64Encode, List.count_cons, List.count_nil, hne, List.length_cons,
      List.length_nil]
    simp [padding]
  | case4 => rfl

/-- Decoding the encoder's output through the same alphabet recovers the
original bytes.  The padding characters are discarded by the `is_b64`
filter; every other emitted character maps back to its 6-bit index, and
the per-chunk bit arithmetic inverts. -/
theorem decodeCore_filterMap_base64Encode (k : Kind) :
    ∀ bs : List Nat, (∀ x ∈ bs, x < 256) →
      decodeCore ((base64Encode k bs).filterMap k.isB64) = .ok bs := by
  intro bs
  induction bs using base64Encode.induct k with
  | case1 a b c rest ih =>
    intro hlt
    have ha : a < 256 := hlt a (by simp)
    have hb : b < 256 := hlt b (by simp)
    have hc : c < 256 := hlt c (by simp)
    have h1 := isB64_valueAt k (a / 4) (by omega)
    have h2 := isB64_valueAt k (a % 4 * 16 + b / 16 % 16) (by omega)
    have h3 := isB64_valueAt k (b % 16 * 4 + c / 64 % 4) (by omega)
    have h4 := isB64_valueAt k (c % 64) (by omega)
    rw [base64Encode]
    simp only [List.cons_append, List.nil_append, List.filterMap_cons, h1, h2, h3, h4]
    rw [decodeCore, ih (fun x hx => hlt x (by simp [hx]))]
    simp only [Except.ok.injEq, List.cons.injEq, and_true]
    refine ⟨?_, ?_, ?_⟩ <;> omega
  | case2 a =>
    intro hlt
    have ha : a < 256 := hlt a (by simp)
    have h1 := isB64_valueAt k (a / 4) (by omega)
    have h2 := isB64_valueAt k (a % 4 * 16) (by omega)
    rw [base64Encode]
    simp only [List.filterMap_cons, h1, h2, isB64_padding, List.filterMap_nil]
    rw [decodeCore]
    simp only [Except.ok.injEq, List.cons.injEq, and_true]
    omega
  | case3 a b =>
    intro hlt
    have ha : a < 256 := hlt a (by simp)
    have hb : b < 256 := hlt b (by simp)
    have h1 := isB64_valueAt k (a / 4) (by omega)
    have h2 := isB64_valueAt k (a % 4 * 16 + b / 16 % 16) (by omega)
    have h3 := isB64_valueAt k (b % 16 * 4) (by omega)
    rw [base64Encode]
    simp only [List.filterMap_cons, h1, h2, h3, isB64_padding, List.filterMap_nil]
    rw [decodeCore]
    simp only [Except.ok.injEq, List.cons.injEq, and_true]
    refine ⟨?_, ?_⟩ <;> omega
  | case4 =>
    intro _
    rfl

/-- `decode_core` fails exactly on index sequences of length ≡ 1 mod 4,
and then with `InvalidFormat(1)`. -/
theorem decodeCore_err : ∀ (l : List Nat), l.length % 4 = 1 →
    decodeCore l = .error (.invalidFormat 1)
  | w :: x :: y :: z :: rest, h => by
    rw [decodeCore, decodeCore_err rest (by simp only [List.length_cons] at h; omega)]
  | [], h => by simp at h
  | [w], _ => by rw [decodeCore]
  | [w, x], h => by simp at h
  | [w, x, y], h => by simp at h

/-- `decode_core` succeeds exactly on index sequences of length
≢ 1 mod 4. -/
theorem decodeCore_ok : ∀ (l : List Nat), l.length % 4 ≠ 1 →
    ∃ v, decodeCore l = .ok v
  | w :: x :: y :: z :: rest, h => by
    obtain ⟨v, hv⟩ :=
      decodeCore_ok rest (by simp only [List.length_cons] at h ⊢; omega)
    exact ⟨_, by rw [decodeCore, hv]⟩
  | [], _ => ⟨[], by rw [decodeCore]⟩
  | [w], h => by simp at h
  | [w, x], _ => ⟨_, by rw [decodeCore]⟩
  | [w, x, y], _ => ⟨_, by rw [decodeCore]⟩

end Base64

namespace BlockCbc

/-- Blockwise CBC round trip for the single-block providers: decrypting
with the same primitive inverse and the same starting IV undoes
encryption. -/
theorem decrypt_encrypt_blocks (B : Nat) (E D : List Nat → List Nat)
    (hED : ∀ b, D (E b) = b) (hElen : ∀ b, (E b).length = b.length) :
    ∀ (blocks : List (List Nat)) (iv : List Nat), iv.length = B →
      (∀ blk ∈ blocks, blk.length = B) →
      decryptBlocks D ⟨iv⟩ (encryptBlocks E ⟨iv⟩ blocks) = blocks := by
  intro blocks
  induction blocks with
  | nil => intro iv _ _; rfl
  | cons p ps ih =>
    intro iv hiv hall
    have hp : p.length = B := hall p (List.mem_cons_self _ _)
    have hclen : (E (xorBuffers iv p)).length = B := by
      rw [hElen, length_xorBuffers, hiv, hp, Nat.min_self]
    simp only [encryptBlocks, decryptBlocks, encryptBlock, decryptBlock, hED]
    rw [xorBuffers_xorBuffers_left iv p (by rw [hiv, hp]),
      ih (E (xorBuffers iv p)) hclen (fun x hx => hall x (List.mem_cons_of_mem _ hx))]

end BlockCbc

/-! ### The claims -/

/-- C1: CBC round-trip — for every valid key (modelled as a primitive
pair `E`, `D` with `D ∘ E = id`, length-preserving as an in-place block
transform), block-length IV and plaintext `P` whose length is a multiple
of `BLOCKSIZE`, decrypting the encryption of `P` under the same key and
IV returns `P`; and the same round-trip holds for ECB (no IV): whenever
the streaming ECB encryption engine produces a ciphertext from `P`,
running the ECB decryption engine over that ciphertext returns `P`. -/
theorem claim_c1_roundtrip (B : Nat) (E D : List Nat → List Nat) (iv P : List Nat)
    (hB : 0 < B) (hED : ∀ b, D (E b) = b) (hElen : ∀ b, (E b).length = b.length)
    (hiv : iv.length = B) (hP : P.length % B = 0) :
    BlockCbc.decryptBlocks D ⟨iv⟩
        (BlockCbc.encryptBlocks E ⟨iv⟩ (chunksOf B P)) = chunksOf B P ∧
    ∀ C, Ecb.run E B P = .ok C → Ecb.run D B C = .ok P := by
  have hblocks := length_mem_chunksOf B hB P hP
  constructor
  · exact BlockCbc.decrypt_encrypt_blocks B E D hED hElen (chunksOf B P) iv hiv hblocks
  · intro C hC
    by_cases hPnil : P = []
    · subst hPnil
      rw [Ecb.run] at hC
      simp only [Ecb.write, List.foldl_nil, Ecb.finalize, List.length_nil] at hC
      rw [if_neg (by omega)] at hC
      exact absurd hC (by simp)
    · have hne := chunksOf_ne_nil B P hPnil
      rw [← flatten_chunksOf B P, Ecb.run_flatten E B hB _ hne hblocks] at hC
      have hCval : ((chunksOf B P).map E).flatten = C := by
        simpa using hC
      subst hCval
      have hne' : (chunksOf B P).map E ≠ [] := by
        cases h : chunksOf B P with
        | nil => exact absurd h hne
        | cons a t => simp
      have hlen' : ∀ blk ∈ (chunksOf B P).map E, blk.length = B := by
        intro blk hblk
        obtain ⟨x, hx, rfl⟩ := List.mem_map.mp hblk
        rw [hElen]
        exact hblocks x hx
      rw [Ecb.run_flatten D B hB _ hne' hlen']
      have hcomp : D ∘ E = id := funext hED
      simp only [List.map_map, hcomp, List.map_id, flatten_chunksOf B P]

/-- Witness for C1 at `B = 2`, identity primitive, IV `[5, 6]`,
plaintext `[1, 2, 3, 4]`. -/
theorem claim_c1_roundtrip_witness :
    0 < 2 ∧ ([5, 6] : List Nat).length = 2 ∧ ([1, 2, 3, 4] : List Nat).length % 2 = 0 ∧
    (BlockCbc.decryptBlocks (fun l => l) ⟨[5, 6]⟩
        (BlockCbc.encryptBlocks (fun l => l) ⟨[5, 6]⟩ (chunksOf 2 [1, 2, 3, 4])) =
          chunksOf 2 [1, 2, 3, 4] ∧
      ∀ C, Ecb.run (fun l => l) 2 [1, 2, 3, 4] = .ok C →
        Ecb.run (fun l => l) 2 C = .ok [1, 2, 3, 4]) :=
  ⟨by decide, by decide, by decide,
    claim_c1_roundtrip 2 (fun l => l) (fun l => l) [5, 6] [1, 2, 3, 4]
      (by decide) (fun _ => rfl) (fun _ => rfl) (by decide) (by decide)⟩

/-- C2 (code bug evidence): the claim says finalize fails with
`IncompleteBlock` exactly when `0 < fill < B` — so writing zero bytes
then finalizing should succeed with empty output.  The code's
`if is_full { … } else if !is_full { Err }` chain instead errors on an
empty buffer too: an ECB engine at `BLOCKSIZE = 2` that never received
a byte finalizes to `Err(IncompleteBlock(2))` rather than `Ok([])`.
The partial-buffer half of the claim does hold: one byte written
(`BLOCKSIZE − 1 = 1` missing) fails with `IncompleteBlock(1)`, and two
further conjuncts check an aligned one-block write succeeds. -/
theorem claim_c2_empty_finalize_bug :
    Ecb.run (fun l => l) 2 [] = .error (.incompleteBlock 2) ∧
    Ecb.run (fun l => l) 2 [9] = .error (.incompleteBlock 1) ∧
    Ecb.run (fun l => l.map (fun x => x + 1)) 2 [7, 8] = .ok [8, 9] :=
  ⟨rfl, rfl, rfl⟩

/-- C3 (counterexample): the claim says the streaming CBC engines'
finalize fails with `IncompleteBlock` when the working buffer holds a
non-empty, non-full block.  It does not: `finalize(self) ->
Readable<Vec<u8>>` has no error case at all.  At `BLOCKSIZE = 2` with a
single byte written (fill = 1, so `0 < fill < B`), finalize of both the
encryption and the decryption engine succeeds, handing out the (empty)
output accumulator and silently dropping the buffered byte. -/
theorem claim_c3_counterexample :
    (StreamCbc.encWrite (fun l => l) 2 (StreamCbc.new 2 [0, 0]) [7]).buffer.length = 1 ∧
    StreamCbc.finalize (StreamCbc.encWrite (fun l => l) 2 (StreamCbc.new 2 [0, 0]) [7]) = [] ∧
    (StreamCbc.decWrite (fun l => l) 2 (StreamCbc.new 2 [0, 0]) [7]).buffer.length = 1 ∧
    StreamCbc.finalize (StreamCbc.decWrite (fun l => l) 2 (StreamCbc.new 2 [0, 0]) [7]) = [] :=
  ⟨rfl, rfl, rfl, rfl⟩

/-- C3 (amended): streaming CBC finalize always succeeds, returning
exactly the output accumulated from completed blocks — `B ⌊n/B⌋` bytes
after `n` bytes written to a fresh engine — while an incomplete final
block (`n mod B` bytes) stays in the working buffer and is never
exposed; the incomplete-block error is raised by `flush`, not by
finalize (see C6). -/
theorem claim_c3_finalize_never_fails (B : Nat) (E D : List Nat → List Nat)
    (iv bs : List Nat) (hB : 0 < B)
    (hElen : ∀ l, (E l).length = l.length) (hDlen : ∀ l, (D l).length = l.length)
    (hiv : iv.length = B) :
    (StreamCbc.finalize (StreamCbc.encWrite E B ⟨[], iv, []⟩ bs) =
        (StreamCbc.encWrite E B ⟨[], iv, []⟩ bs).out ∧
      (StreamCbc.finalize (StreamCbc.encWrite E B ⟨[], iv, []⟩ bs)).length =
        B * (bs.length / B) ∧
      (StreamCbc.encWrite E B ⟨[], iv, []⟩ bs).buffer.length = bs.length % B) ∧
    (StreamCbc.finalize (StreamCbc.decWrite D B ⟨[], iv, []⟩ bs) =
        (StreamCbc.decWrite D B ⟨[], iv, []⟩ bs).out ∧
      (StreamCbc.finalize (StreamCbc.decWrite D B ⟨[], iv, []⟩ bs)).length =
        B * (bs.length / B) ∧
      (StreamCbc.decWrite D B ⟨[], iv, []⟩ bs).buffer.length = bs.length % B) := by
  have hdm := Nat.div_add_mod bs.length B
  constructor
  · obtain ⟨h1, h2, h3, h4⟩ := StreamCbc.writeWith_inv (StreamCbc.encProcessBuffer E) B hB
      (fun s hb hi => StreamCbc.encProcessBuffer_spec E B hElen s hb hi)
      bs ⟨[], iv, []⟩ (by simpa using hB) hiv
    refine ⟨rfl, ?_, ?_⟩
    · show (StreamCbc.encWrite E B ⟨[], iv, []⟩ bs).out.length = _
      simp only [StreamCbc.encWrite] at h3 h4 ⊢
      simp only [List.length_nil, Nat.zero_add] at h3 h4
      omega
    · simp only [StreamCbc.encWrite] at h4 ⊢
      simpa using h4
  · obtain ⟨h1, h2, h3, h4⟩ := StreamCbc.writeWith_inv (StreamCbc.decProcessBuffer D) B hB
      (fun s hb hi => StreamCbc.decProcessBuffer_spec D B hDlen s hb hi)
      bs ⟨[], iv, []⟩ (by simpa using hB) hiv
    refine ⟨rfl, ?_, ?_⟩
    · show (StreamCbc.decWrite D B ⟨[], iv, []⟩ bs).out.length = _
      simp only [StreamCbc.decWrite] at h3 h4 ⊢
      simp only [List.length_nil, Nat.zero_add] at h3 h4
      omega
    · simp only [StreamCbc.decWrite] at h4 ⊢
      simpa using h4

/-- Witness for the amended C3 at `B = 2`, identity primitives,
IV `[0, 0]`, input `[1, 2, 3]` (one full block plus one pending byte). -/
theorem claim_c3_finalize_never_fails_witness :
    0 < 2 ∧ ([0, 0] : List Nat).length = 2 ∧
    ((StreamCbc.finalize (StreamCbc.encWrite (fun l => l) 2 ⟨[], [0, 0], []⟩ [1, 2, 3]) =
        (StreamCbc.encWrite (fun l => l) 2 ⟨[], [0, 0], []⟩ [1, 2, 3]).out ∧
      (StreamCbc.finalize (StreamCbc.encWrite (fun l => l) 2 ⟨[], [0, 0], []⟩ [1, 2, 3])).length =
        2 * (([1, 2, 3] : List Nat).length / 2) ∧
      (StreamCbc.encWrite (fun l => l) 2 ⟨[], [0, 0], []⟩ [1, 2, 3]).buffer.length =
        ([1, 2, 3] : List Nat).length % 2) ∧
    (StreamCbc.finalize (StreamCbc.decWrite (fun l => l) 2 ⟨[], [0, 0], []⟩ [1, 2, 3]) =
        (StreamCbc.decWrite (fun l => l) 2 ⟨[], [0, 0], []⟩ [1, 2, 3]).out ∧
      (StreamCbc.finalize (StreamCbc.decWrite (fun l => l) 2 ⟨[], [0, 0], []⟩ [1, 2, 3])).length =
        2 * (([1, 2, 3] : List Nat).length / 2) ∧
      (StreamCbc.decWrite (fun l => l) 2 ⟨[], [0, 0], []⟩ [1, 2, 3]).buffer.length =
        ([1, 2, 3] : List Nat).length % 2)) :=
  ⟨by decide, by decide,
    claim_c3_finalize_never_fails 2 (fun l => l) (fun l => l) [0, 0] [1, 2, 3]
      (by decide) (fun _ => rfl) (fun _ => rfl) (by decide)⟩

/-- C4: CBC decryption capture-before-decrypt — for a completed
ciphertext block `C` and current chaining value `iv`, both CBC
decryption implementations (the single-block provider and the streaming
engine's `process_buffer`) emit `Primitive.decrypt(C) XOR iv` and leave
the pre-decrypt value `C` as the new chaining value. -/
theorem claim_c4_capture_before_decrypt (B : Nat) (D : List Nat → List Nat)
    (iv C out : List Nat) (hiv : iv.length = B) (hC : C.length = B) :
    ((BlockCbc.decryptBlock D ⟨iv⟩ C).2 = xorBuffers (D C) iv ∧
      (BlockCbc.decryptBlock D ⟨iv⟩ C).1.iv = C) ∧
    ((StreamCbc.decProcessBuffer D ⟨C, iv, out⟩).out = out ++ xorBuffers (D C) iv ∧
      (StreamCbc.decProcessBuffer D ⟨C, iv, out⟩).iv = C) :=
  ⟨⟨rfl, rfl⟩, ⟨rfl, rfl⟩⟩

/-- Witness for C4 at `B = 2`, identity primitive, `iv = [1, 1]`,
`C = [2, 3]`, prior output `[9, 9]`. -/
theorem claim_c4_capture_before_decrypt_witness :
    ([1, 1] : List Nat).length = 2 ∧ ([2, 3] : List Nat).length = 2 ∧
    (((BlockCbc.decryptBlock (fun l => l) ⟨[1, 1]⟩ [2, 3]).2 =
        xorBuffers ((fun l => l) [2, 3]) [1, 1] ∧
      (BlockCbc.decryptBlock (fun l => l) ⟨[1, 1]⟩ [2, 3]).1.iv = [2, 3]) ∧
    ((StreamCbc.decProcessBuffer (fun l => l) ⟨[2, 3], [1, 1], [9, 9]⟩).out =
        [9, 9] ++ xorBuffers ((fun l => l) [2, 3]) [1, 1] ∧
      (StreamCbc.decProcessBuffer (fun l => l) ⟨[2, 3], [1, 1], [9, 9]⟩).iv = [2, 3])) :=
  ⟨by decide, by decide,
    claim_c4_capture_before_decrypt 2 (fun l => l) [1, 1] [2, 3] [9, 9]
      (by decide) (by decide)⟩

/-- C5: CBC encryption chaining — for a completed plaintext block `P`
and current chaining value `iv`, both CBC encryption implementations
emit `C = Primitive.encrypt(P XOR iv)` and leave `C` as the new chaining
value.  (The single-block provider computes the XOR into its IV buffer,
i.e. `iv XOR P`; XOR commutes elementwise.) -/
theorem claim_c5_encryption_chaining (B : Nat) (E : List Nat → List Nat)
    (iv P out : List Nat) (hiv : iv.length = B) (hP : P.length = B) :
    ((BlockCbc.encryptBlock E ⟨iv⟩ P).2 = E (xorBuffers P iv) ∧
      (BlockCbc.encryptBlock E ⟨iv⟩ P).1.iv = (BlockCbc.encryptBlock E ⟨iv⟩ P).2) ∧
    ((StreamCbc.encProcessBuffer E ⟨P, iv, out⟩).out = out ++ E (xorBuffers P iv) ∧
      (StreamCbc.encProcessBuffer E ⟨P, iv, out⟩).iv = E (xorBuffers P iv)) := by
  refine ⟨⟨?_, rfl⟩, ⟨rfl, rfl⟩⟩
  show E (xorBuffers iv P) = E (xorBuffers P iv)
  rw [xorBuffers_comm]

/-- Witness for C5 at `B = 2`, identity primitive, `iv = [1, 1]`,
`P = [2, 3]`, prior output `[9, 9]`. -/
theorem claim_c5_encryption_chaining_witness :
    ([1, 1] : List Nat).length = 2 ∧ ([2, 3] : List Nat).length = 2 ∧
    (((BlockCbc.encryptBlock (fun l => l) ⟨[1, 1]⟩ [2, 3]).2 =
        (fun l => l) (xorBuffers [2, 3] [1, 1]) ∧
      (BlockCbc.encryptBlock (fun l => l) ⟨[1, 1]⟩ [2, 3]).1.iv =
        (BlockCbc.encryptBlock (fun l => l) ⟨[1, 1]⟩ [2, 3]).2) ∧
    ((StreamCbc.encProcessBuffer (fun l => l) ⟨[2, 3], [1, 1], [9, 9]⟩).out =
        [9, 9] ++ (fun l => l) (xorBuffers [2, 3] [1, 1]) ∧
      (StreamCbc.encProcessBuffer (fun l => l) ⟨[2, 3], [1, 1], [9, 9]⟩).iv =
        (fun l => l) (xorBuffers [2, 3] [1, 1]))) :=
  ⟨by decide, by decide,
    claim_c5_encryption_chaining 2 (fun l => l) [1, 1] [2, 3] [9, 9]
      (by decide) (by decide)⟩

/-- C6: flush semantics — the ECB engines' `flush` and the buffered
adapter's `flush` always succeed (their bodies are `Ok(())`, touching no
state); the streaming CBC engines' `flush` (one shared body for the
encryption and decryption types) succeeds exactly when the working
buffer is currently full, and otherwise fails with an `UnexpectedEof`
io error carrying `IncompleteBlock(B − fill)`, independently of
finalize. -/
theorem claim_c6_flush (B : Nat) (σ : Type) (sE : Ecb.State)
    (sA : Buffered.State σ) (sC : StreamCbc.State) :
    Ecb.flush sE = .ok () ∧
    Buffered.flush sA = .ok () ∧
    (StreamCbc.flush B sC = .ok () ↔ sC.buffer.length = B) ∧
    (¬ sC.buffer.length = B →
      StreamCbc.flush B sC =
        .error (.unexpectedEof, .incompleteBlock (B - sC.buffer.length))) := by
  refine ⟨rfl, rfl, ?_, ?_⟩
  · constructor
    · intro h
      by_contra hne
      rw [StreamCbc.flush, if_neg hne] at h
      exact absurd h (by simp)
    · intro h
      rw [StreamCbc.flush, if_pos h]
  · intro h
    rw [StreamCbc.flush, if_neg h]

/-- Witness for C6 at `B = 2` with a one-byte CBC working buffer. -/
theorem claim_c6_flush_witness :
    Ecb.flush ⟨[1], [2]⟩ = .ok () ∧
    Buffered.flush (σ := Unit) ⟨(), [1], [2]⟩ = .ok () ∧
    (StreamCbc.flush 2 ⟨[5], [0, 0], []⟩ = .ok () ↔
      (StreamCbc.State.mk [5] [0, 0] []).buffer.length = 2) ∧
    (¬ (StreamCbc.State.mk [5] [0, 0] []).buffer.length = 2 →
      StreamCbc.flush 2 ⟨[5], [0, 0], []⟩ =
        .error (.unexpectedEof,
          .incompleteBlock (2 - (StreamCbc.State.mk [5] [0, 0] []).buffer.length))) :=
  claim_c6_flush 2 Unit ⟨[1], [2]⟩ ⟨(), [1], [2]⟩ ⟨[5], [0, 0], []⟩

/-- C7: `missing()` on the buffered adapter returns `none` exactly when
the working buffer is empty or full, and on a partial buffer returns
`some` of the byte count still needed to complete the block,
`BLOCKSIZE − fill`. -/
theorem claim_c7_missing (B : Nat) (σ : Type) (s : Buffered.State σ) :
    (Buffered.missing B s = none ↔
      (s.buffer.length = 0 ∨ s.buffer.length = B)) ∧
    (0 < s.buffer.length → s.buffer.length < B →
      Buffered.missing B s = some (B - s.buffer.length)) := by
  constructor
  · rw [Buffered.missing]
    by_cases hfull : s.buffer.length = B
    · simp [hfull]
    · by_cases hempty : s.buffer.length = 0
      · simp [hempty, hfull]
      · simp [hfull, hempty]
  · intro h1 h2
    rw [Buffered.missing, if_pos ⟨by omega, by omega⟩]

/-- Witness for C7 with a one-byte buffer at `B = 2`. -/
theorem claim_c7_missing_witness :
    ((Buffered.missing 2 (σ := Unit) ⟨(), [7], []⟩ = none ↔
      ((Buffered.State.mk () [7] []).buffer.length = 0 ∨
        (Buffered.State.mk () [7] []).buffer.length = 2)) ∧
    (0 < (Buffered.State.mk () [7] []).buffer.length →
      (Buffered.State.mk () [7] []).buffer.length < 2 →
      Buffered.missing 2 (σ := Unit) ⟨(), [7], []⟩ =
        some (2 - (Buffered.State.mk () [7] []).buffer.length))) :=
  claim_c7_missing 2 Unit ⟨(), [7], []⟩

/-- C8: Base64 round-trip — for every byte sequence and either alphabet,
the encoder emits a padded text of length a multiple of 4 (0, 2 or 1
`'='` characters for input lengths ≡ 0, 1, 2 mod 3 respectively), and
decoding that text with the same alphabet succeeds and returns the
original bytes. -/
theorem claim_c8_base64_roundtrip (k : Base64.Kind) (bs : List Nat)
    (h : ∀ x ∈ bs, x < 256) :
    (Base64.base64Encode k bs).length % 4 = 0 ∧
    (Base64.base64Encode k bs).count Base64.padding = (3 - bs.length % 3) % 3 ∧
    Base64.base64Decode k (Base64.base64Encode k bs) = .ok bs := by
  refine ⟨Base64.length_base64Encode k bs, Base64.count_padding_base64Encode k bs, ?_⟩
  rw [Base64.base64Decode, if_neg (by simp [Base64.length_base64Encode k bs])]
  exact Base64.decodeCore_filterMap_base64Encode k bs h

/-- Witness for C8 on the byte sequence `[77, 97, 110, 105]` (length
≡ 1 mod 3, two padding characters) under the standard alphabet. -/
theorem claim_c8_base64_roundtrip_witness :
    (∀ x ∈ ([77, 97, 110, 105] : List Nat), x < 256) ∧
    ((Base64.base64Encode .basic [77, 97, 110, 105]).length % 4 = 0 ∧
      (Base64.base64Encode .basic [77, 97, 110, 105]).count Base64.padding =
        (3 - ([77, 97, 110, 105] : List Nat).length % 3) % 3 ∧
      Base64.base64Decode .basic (Base64.base64Encode .basic [77, 97, 110, 105]) =
        .ok [77, 97, 110, 105]) :=
  ⟨by decide,
    claim_c8_base64_roundtrip .basic [77, 97, 110, 105] (by decide)⟩

/-- C9: Base64 decode failure conditions — `base64_decode` fails with
`InvalidInputLength(len)` exactly when the input length is not a
multiple of 4; otherwise it filters out the characters outside the
chosen alphabet, fails with `InvalidFormat(1)` exactly when the filtered
index sequence has length ≡ 1 mod 4, and succeeds in every other case. -/
theorem claim_c9_base64_decode_errors (k : Base64.Kind) (s : List Char) :
    (s.length % 4 ≠ 0 →
      Base64.base64Decode k s = .error (.invalidInputLength s.length)) ∧
    (s.length % 4 = 0 →
      ((s.filterMap k.isB64).length % 4 = 1 →
        Base64.base64Decode k s = .error (.invalidFormat 1)) ∧
      ((s.filterMap k.isB64).length % 4 ≠ 1 →
        ∃ v, Base64.base64Decode k s = .ok v)) := by
  constructor
  · intro h
    rw [Base64.base64Decode, if_pos h]
  · intro h
    constructor
    · intro hf
      rw [Base64.base64Decode, if_neg (by omega)]
      exact Base64.decodeCore_err _ hf
    · intro hf
      obtain ⟨v, hv⟩ := Base64.decodeCore_ok (s.filterMap k.isB64) hf
      exact ⟨v, by rw [Base64.base64Decode, if_neg (by omega)]; exact hv⟩

/-- Witness for C9 on the repo's own invalid-format test input
`"A=AA==AA"` (length 8, filtered length 5 ≡ 1 mod 4). -/
theorem claim_c9_base64_decode_errors_witness :
    ((['A', '=', 'A', 'A', '=', '=', 'A', 'A'] : List Char).length % 4 ≠ 0 →
      Base64.base64Decode .basic ['A', '=', 'A', 'A', '=', '=', 'A', 'A'] =
        .error (.invalidInputLength
          (['A', '=', 'A', 'A', '=', '=', 'A', 'A'] : List Char).length)) ∧
    ((['A', '=', 'A', 'A', '=', '=', 'A', 'A'] : List Char).length % 4 = 0 →
      (((['A', '=', 'A', 'A', '=', '=', 'A', 'A'] : List Char).filterMap
          (Base64.Kind.isB64 .basic)).length % 4 = 1 →
        Base64.base64Decode .basic ['A', '=', 'A', 'A', '=', '=', 'A', 'A'] =
          .error (.invalidFormat 1)) ∧
      (((['A', '=', 'A', 'A', '=', '=', 'A', 'A'] : List Char).filterMap
          (Base64.Kind.isB64 .basic)).length % 4 ≠ 1 →
        ∃ v, Base64.base64Decode .basic ['A', '=', 'A', 'A', '=', '=', 'A', 'A'] =
          .ok v)) :=
  claim_c9_base64_decode_errors .basic ['A', '=', 'A', 'A', '=', '=', 'A', 'A']

/-- C10: `finalize_and_reset` on the buffered adapter returns the
accumulated output and replaces only the working buffer and the output
accumulator; the wrapped cipher field is left untouched (first
conjunct, for any wrapped cipher type).  Consequently, wrapping the
single-block CBC encryption provider, a second stream written after
`finalize_and_reset` is chained from the previous stream's final
ciphertext block `C₁ = E(iv XOR P₁)` rather than from the originally
supplied IV: the second stream's block encrypts to `E(C₁ XOR P₂)`. -/
theorem claim_c10_finalize_and_reset_frame (B : Nat) (E : List Nat → List Nat)
    (iv P1 P2 : List Nat) (hB : 0 < B) (hiv : iv.length = B)
    (hP1 : P1.length = B) (hP2 : P2.length = B) :
    (∀ (σ : Type) (s : Buffered.State σ),
      (Buffered.finalizeAndReset s).1 = s.out ∧
      (Buffered.finalizeAndReset s).2.cipher = s.cipher ∧
      (Buffered.finalizeAndReset s).2.buffer = [] ∧
      (Buffered.finalizeAndReset s).2.out = []) ∧
    (Buffered.finalizeAndReset
        (Buffered.write (BlockCbc.encryptBlock E) B ⟨⟨iv⟩, [], []⟩ P1)).1 =
      E (xorBuffers iv P1) ∧
    (Buffered.finalizeAndReset
        (Buffered.write (BlockCbc.encryptBlock E) B ⟨⟨iv⟩, [], []⟩ P1)).2.cipher =
      (Buffered.write (BlockCbc.encryptBlock E) B ⟨⟨iv⟩, [], []⟩ P1).cipher ∧
    (Buffered.write (BlockCbc.encryptBlock E) B
        (Buffered.finalizeAndReset
          (Buffered.write (BlockCbc.encryptBlock E) B ⟨⟨iv⟩, [], []⟩ P1)).2 P2).out =
      E (xorBuffers (E (xorBuffers iv P1)) P2) ∧
    (Buffered.write (BlockCbc.encryptBlock E) B
        (Buffered.finalizeAndReset
          (Buffered.write (BlockCbc.encryptBlock E) B ⟨⟨iv⟩, [], []⟩ P1)).2 P2).cipher.iv =
      E (xorBuffers (E (xorBuffers iv P1)) P2) := by
  have hne1 : P1 ≠ [] := by
    intro h; rw [h] at hP1; simp at hP1; omega
  have hne2 : P2 ≠ [] := by
    intro h; rw [h] at hP2; simp at hP2; omega
  have hw1 := Buffered.write_completes_block (BlockCbc.encryptBlock E) B P1 hne1
    (⟨iv⟩ : BlockCbc.EncState) [] [] (by simpa using hP1)
  have hw2 := Buffered.write_completes_block (BlockCbc.encryptBlock E) B P2 hne2
    (⟨E (xorBuffers iv P1)⟩ : BlockCbc.EncState) [] [] (by simpa using hP2)
  refine ⟨fun σ s => ⟨rfl, rfl, rfl, rfl⟩, ?_, ?_, ?_, ?_⟩ <;>
    simp only [hw1, Buffered.finalizeAndReset, List.nil_append, BlockCbc.encryptBlock,
      hw2]

/-- Witness for C10 at `B = 2`, identity primitive, IV `[0, 0]`,
first stream `[1, 2]`, second stream `[3, 4]`. -/
theorem claim_c10_finalize_and_reset_frame_witness :
    0 < 2 ∧ ([0, 0] : List Nat).length = 2 ∧ ([1, 2] : List Nat).length = 2 ∧
    ([3, 4] : List Nat).length = 2 ∧
    ((∀ (σ : Type) (s : Buffered.State σ),
      (Buffered.finalizeAndReset s).1 = s.out ∧
      (Buffered.finalizeAndReset s).2.cipher = s.cipher ∧
      (Buffered.finalizeAndReset s).2.buffer = [] ∧
      (Buffered.finalizeAndReset s).2.out = []) ∧
    (Buffered.finalizeAndReset
        (Buffered.write (BlockCbc.encryptBlock (fun l => l)) 2 ⟨⟨[0, 0]⟩, [], []⟩ [1, 2])).1 =
      (fun l => l) (xorBuffers [0, 0] [1, 2]) ∧
    (Buffered.finalizeAndReset
        (Buffered.write (BlockCbc.encryptBlock (fun l => l)) 2 ⟨⟨[0, 0]⟩, [], []⟩ [1, 2])).2.cipher =
      (Buffered.write (BlockCbc.encryptBlock (fun l => l)) 2 ⟨⟨[0, 0]⟩, [], []⟩ [1, 2]).cipher ∧
    (Buffered.write (BlockCbc.encryptBlock (fun l => l)) 2
        (Buffered.finalizeAndReset
          (Buffered.write (BlockCbc.encryptBlock (fun l => l)) 2 ⟨⟨[0, 0]⟩, [], []⟩ [1, 2])).2
        [3, 4]).out =
      (fun l => l) (xorBuffers ((fun l => l) (xorBuffers [0, 0] [1, 2])) [3, 4]) ∧
    (Buffered.write (BlockCbc.encryptBlock (fun l => l)) 2
        (Buffered.finalizeAndReset
          (Buffered.write (BlockCbc.encryptBlock (fun l => l)) 2 ⟨⟨[0, 0]⟩, [], []⟩ [1, 2])).2
        [3, 4]).cipher.iv =
      (fun l => l) (xorBuffers ((fun l => l) (xorBuffers [0, 0] [1, 2])) [3, 4])) :=
  ⟨by decide, by decide, by decide, by decide,
    claim_c10_finalize_and_reset_frame 2 (fun l => l) [0, 0] [1, 2] [3, 4]
      (by decide) (by decide) (by decide) (by decide)⟩

end Himitsu
